import Mathlib

/-!
Shallow embedding of the `namesdata` analytics core of the ssa-names
repository (src/cmd/names/main.go, package `namesdata`): record filtering,
case-insensitive aggregation with deterministic sorting, rank lookup,
Vose alias sampling, single-shot weighted selection, and per-year trends.

Modelling conventions:
* Go `int` is modelled as `Int` (no claim depends on 64-bit overflow).
* Go `float64` is modelled as `ℚ`; the properties proved here (lengths,
  index ranges, control structure of the sampler) do not depend on
  floating-point rounding.
* Go `strings.ToUpper` / `strings.TrimSpace` are modelled character-wise
  over the string's character list (`upperStr` / `trimStr`), and Go's
  byte-wise string comparison is modelled as lexicographic comparison of
  character lists (`strLt`); UTF-8 byte order coincides with code-point
  order, so the ordering is the same.
* A Go `map` accumulated from a slice is modelled as an association list
  in first-insertion order; the Go code only exposes such maps through an
  explicit sort or through point lookups, and the determinism theorem
  below shows the sort output is independent of the enumeration order.
* A `*rand.Rand` is modelled as a stream `List ℚ` of uniform draws in
  [0,1); `Intn n` consumes one draw `u` and yields `⌊u * n⌋`, `Float64`
  consumes one draw and yields it.
-/

/-- Error values produced by the core (Go returns `error` strings). -/
inductive Err
  | nameRequired
  | noMatching
  | notFound (name : String)
  | negativeCount (name : String)
  | noMass
  | nameListEmpty
  deriving DecidableEq, Repr

attribute [local semireducible] Rat.mul Rat.add Rat.sub Rat.inv Rat.ofScientific

instance {ε α : Type} [DecidableEq ε] [DecidableEq α] : DecidableEq (Except ε α) := fun a b =>
  match a, b with
  | .ok x, .ok y =>
      if h : x = y then .isTrue (by rw [h]) else .isFalse (by intro hc; cases hc; exact h rfl)
  | .error x, .error y =>
      if h : x = y then .isTrue (by rw [h]) else .isFalse (by intro hc; cases hc; exact h rfl)
  | .ok _, .error _ => .isFalse (by intro hc; cases hc)
  | .error _, .ok _ => .isFalse (by intro hc; cases hc)

/-- Go `strings.ToUpper` (character-wise). -/
def upperStr (s : String) : String := ⟨s.data.map Char.toUpper⟩

/-- Go `strings.TrimSpace` (drop leading and trailing whitespace). -/
def trimStr (s : String) : String :=
  ⟨((s.data.dropWhile Char.isWhitespace).reverse.dropWhile Char.isWhitespace).reverse⟩

/-- Go's `<` on strings: lexicographic comparison. -/
def strLt (a b : String) : Prop := List.Lex (· < ·) a.data b.data

instance : DecidableRel strLt := fun a b => by
  unfold strLt; infer_instance

/-- Go's `<=` on strings, as used by the sort comparator (`¬ b < a`). -/
def strLe (a b : String) : Prop := ¬ strLt b a

instance : DecidableRel strLe := fun a b => by
  unfold strLe; infer_instance

/-- A single row of the names-by-state dataset. -/
structure Record where
  state : String
  gender : String
  year : Int
  name : String
  count : Int
  deriving DecidableEq, Repr

/-- An aggregated total for a name. -/
structure NameCount where
  name : String
  count : Int
  deriving DecidableEq, Repr

instance : Inhabited NameCount := ⟨⟨"", 0⟩⟩

/-- Rank and count of a name in a specific year. -/
structure TrendPoint where
  year : Int
  rank : Int
  count : Int
  present : Bool
  deriving DecidableEq, Repr

instance : Inhabited TrendPoint := ⟨⟨0, 0, 0, false⟩⟩

/-- Chronologically ordered trend points for one name. -/
structure TrendSeries where
  name : String
  points : List TrendPoint
  deriving DecidableEq, Repr

instance : Inhabited TrendSeries := ⟨⟨"", []⟩⟩

/-- Filter predicate of `AggregateNames`: `year == 0` means all years,
`gender` (already trimmed and upper-cased) empty means all genders. -/
def recordPasses (year : Int) (gender : String) (r : Record) : Bool :=
  (year == 0 || r.year == year) && (gender == "" || upperStr r.gender == gender)

/-- One step of the grouping loop of `AggregateNames`: add the record's
count to the entry keyed by the upper-cased name, creating the entry with
the record's casing as display name when the key is new. -/
def bump (r : Record) : List NameCount → List NameCount
  | [] => [⟨r.name, r.count⟩]
  | e :: rest =>
      if upperStr e.name = upperStr r.name then ⟨e.name, e.count + r.count⟩ :: rest
      else e :: bump r rest

/-- The grouping loop: fold the records through `bump`, keeping only those
passing the predicate.  This is the `totals` map of `AggregateNames`,
enumerated in first-insertion order. -/
def accumulate (p : Record → Bool) (records : List Record) : List NameCount :=
  records.foldl (fun acc r => if p r then bump r acc else acc) []

/-- The "not less than" order the Go comparator sorts by:
`!(less j i)` where `less i j` compares count descending with ties broken
by case-sensitive name ascending. -/
def aggLE (a b : NameCount) : Prop :=
  b.count < a.count ∨ (a.count = b.count ∧ strLe a.name b.name)

instance : DecidableRel aggLE := fun a b => by
  unfold aggLE; infer_instance

/-- The strict comparator passed to Go's `sort.Slice`. -/
def nameCountLess (a b : NameCount) : Prop :=
  if a.count = b.count then strLt a.name b.name else b.count < a.count

instance : DecidableRel nameCountLess := fun a b => by
  unfold nameCountLess; infer_instance

/-- The sort step of `AggregateNames` (Go `sort.Slice` with the comparator
above; any correct sort yields the same list because `aggLE` is
antisymmetric, which the determinism theorem below makes precise). -/
def sortAgg (l : List NameCount) : List NameCount :=
  l.insertionSort aggLE

/-- The `ranks` map of `AggregateNames`: upper-cased name to 1-based
position, built by iterating the sorted list. -/
def buildRanks (aggregated : List NameCount) : List (String × Nat) :=
  aggregated.enum.map fun p => (upperStr p.2.name, p.1 + 1)

/-- Go map lookup on an insertion list: the last write to a key wins. -/
def lookupRank (ranks : List (String × Nat)) (key : String) : Option Nat :=
  ranks.foldl (fun acc p => if p.1 = key then some p.2 else acc) none

/-- `AggregateNames records year gender`: filters, groups case-insensitively,
sorts by count descending / name ascending, and returns the list together
with the 1-based rank map. -/
def AggregateNames (records : List Record) (year : Int) (gender : String) :
    List NameCount × List (String × Nat) :=
  let g := upperStr (trimStr gender)
  let aggregated := sortAgg (accumulate (recordPasses year g) records)
  (aggregated, buildRanks aggregated)

/-- `RankFromAggregate`: rank lookup over precomputed aggregates. -/
def RankFromAggregate (aggregated : List NameCount) (ranks : List (String × Nat))
    (name : String) : Except Err (Nat × NameCount) :=
  if trimStr name = "" then .error .nameRequired
  else if aggregated.isEmpty then .error .noMatching
  else
    match lookupRank ranks (upperStr name) with
    | none => .error (.notFound name)
    | some rank => .ok (rank, aggregated.getD (rank - 1) default)

/-! ## Random source model and weighted selection -/

/-- Pop the next uniform draw from the stream (streams are always consumed
within their length in the verified paths). -/
def takeRand : List ℚ → ℚ × List ℚ
  | [] => (0, [])
  | u :: rest => (u, rest)

/-- `rand.Rand.Intn n`: map one uniform draw in [0,1) to an integer in [0,n). -/
def intn (n : Nat) (rng : List ℚ) : Nat × List ℚ :=
  let (u, rng') := takeRand rng
  ((⌊u * n⌋).toNat, rng')

/-- `rand.Rand.Float64`: one uniform draw in [0,1). -/
def float64 (rng : List ℚ) : ℚ × List ℚ := takeRand rng

/-- The sum-and-check loop at the top of `NewNameSampler` (and of
`RandomNameFromAggregate`): reject the first negative count, otherwise
return the total. -/
def checkTotal : List NameCount → Except Err Int
  | [] => .ok 0
  | e :: rest =>
      if e.count < 0 then .error (.negativeCount e.name)
      else (checkTotal rest).map (fun t => e.count + t)

/-- The worklist loop of Vose's alias method in `NewNameSampler`.  The Go
code pushes and pops at the end of the `small`/`large` slices; here the
worklists are represented top-of-stack first, which is the same abstract
stack.  Each iteration shrinks `small.length + large.length` by exactly
one, so running with that sum as fuel is precisely the `while` loop (the
fuel-exhausted case is only reached with both worklists empty).  Returns
the final `prob` and `alias` arrays together with the remaining worklists,
which the caller drains to probability 1. -/
def voseLoop : Nat → List ℚ → List ℚ → List Nat → List Nat → List Nat →
    List ℚ × List Nat × List Nat × List Nat
  | fuel + 1, scaled, prob, aliasArr, smallIdx :: smallRest, largeIdx :: largeRest =>
      let prob' := prob.set smallIdx (scaled.getD smallIdx 0)
      let aliasArr' := aliasArr.set smallIdx largeIdx
      let newVal := scaled.getD largeIdx 0 + scaled.getD smallIdx 0 - 1
      let scaled' := scaled.set largeIdx newVal
      if newVal < 1 then voseLoop fuel scaled' prob' aliasArr' (largeIdx :: smallRest) largeRest
      else voseLoop fuel scaled' prob' aliasArr' smallRest (largeIdx :: largeRest)
  | _, _, prob, aliasArr, small, large => (prob, aliasArr, small, large)

/-- Alias-method sampler state (`NameSampler` in Go). -/
structure NameSampler where
  entries : List NameCount
  prob : List ℚ
  aliasArr : List Nat
  total : Int
  deriving DecidableEq, Repr

/-- `NewNameSampler`: validate the distribution and build the alias table. -/
def NewNameSampler (aggregated : List NameCount) : Except Err NameSampler :=
  if aggregated.isEmpty then .error .noMatching
  else
    match checkTotal aggregated with
    | .error e => .error e
    | .ok total =>
        if total = 0 then .error .noMass
        else
          let n := aggregated.length
          let scaled := aggregated.map fun e => (e.count : ℚ) * (n : ℚ) / (total : ℚ)
          let alias0 := List.range n
          let prob0 := List.replicate n (0 : ℚ)
          let small0 := ((List.range n).filter fun i => scaled.getD i 0 < 1).reverse
          let large0 := ((List.range n).filter fun i => ¬ scaled.getD i 0 < 1).reverse
          let res := voseLoop (small0.length + large0.length) scaled prob0 alias0 small0 large0
          let prob1 := res.2.2.2.foldl (fun p idx => p.set idx 1) res.1
          let prob2 := res.2.2.1.foldl (fun p idx => p.set idx 1) prob1
          .ok { entries := aggregated, prob := prob2, aliasArr := res.2.1, total := total }

/-- `NameSampler.Pick`: one table draw, consuming one discrete and one
continuous random number. -/
def Pick (s : NameSampler) (rng : List ℚ) : Except Err (NameCount × List ℚ) :=
  if s.entries.isEmpty then .error .noMatching
  else
    let ir := intn s.entries.length rng
    if s.prob.isEmpty ∨ s.aliasArr.isEmpty then .ok (s.entries.getD ir.1 default, ir.2)
    else
      let fr := float64 ir.2
      if fr.1 < s.prob.getD ir.1 0 then .ok (s.entries.getD ir.1 default, fr.2)
      else .ok (s.entries.getD (s.aliasArr.getD ir.1 0) default, fr.2)

/-- The linear accumulation scan of `RandomNameFromAggregateWithTotal`:
return the first entry whose running sum exceeds `pick`. -/
def scanPick (pick : Int) : Int → List NameCount → Option NameCount
  | _, [] => none
  | running, e :: rest =>
      let running' := running + e.count
      if pick < running' then some e else scanPick pick running' rest

/-- `RandomNameFromAggregateWithTotal`: single-shot weighted selection with
a caller-supplied total; falls back to the last entry when the scan runs
off the end. -/
def RandomNameFromAggregateWithTotal (aggregated : List NameCount) (total : Int)
    (rng : List ℚ) : Except Err (NameCount × List ℚ) :=
  if aggregated.isEmpty then .error .noMatching
  else if total ≤ 0 then .error .noMass
  else
    let pr := intn total.toNat rng
    match scanPick (pr.1 : Int) 0 aggregated with
    | some e => .ok (e, pr.2)
    | none => .ok (aggregated.getLastD default, pr.2)

/-- Sum of the counts of the first `k` entries (for stating the scan). -/
def cumsum (l : List NameCount) (k : Nat) : Int :=
  ((l.take k).map (·.count)).sum

/-! ## Trend -/

/-- Gender-only filter used by `Trend`. -/
def genderPasses (gender : String) (r : Record) : Bool :=
  gender == "" || upperStr r.gender == gender

/-- The per-year grouping predicate of `Trend`: gender filter plus one
year bucket. -/
def trendYearPred (gender : String) (y : Int) (r : Record) : Bool :=
  genderPasses gender r && (r.year == y)

/-- De-duplication of the requested names in `Trend`: trim, drop empties,
keep the first occurrence of each upper-cased key with its input casing. -/
def dedupeNames (names : List String) : List (String × String) :=
  names.foldl
    (fun acc raw =>
      let trimmed := trimStr raw
      if trimmed = "" then acc
      else
        let key := upperStr trimmed
        if acc.any (fun q => q.1 = key) then acc else acc ++ [(key, trimmed)])
    []

/-- The distinct years of gender-passing records, in first-appearance
order (the key set of Go's `yearly` map). -/
def yearsOf (gender : String) (records : List Record) : List Int :=
  records.foldl
    (fun ys r =>
      if genderPasses gender r && !(ys.contains r.year) then ys ++ [r.year] else ys)
    []

/-- `sort.Ints`. -/
def sortInts (l : List Int) : List Int :=
  l.insertionSort (· ≤ ·)

/-- One year's aggregation bucket of `Trend` (`yearly[y]`, enumerated in
first-insertion order exactly like `accumulate`). -/
def yearEntries (gender : String) (y : Int) (records : List Record) : List NameCount :=
  accumulate (trendYearPred gender y) records

/-- A year's sorted standings (`entries` after the per-year sort). -/
def yearStandings (gender : String) (y : Int) (records : List Record) : List NameCount :=
  sortAgg (yearEntries gender y records)

/-- The `TrendPoint` emitted for one requested key in one year. -/
def pointFor (records : List Record) (gender : String) (key : String) (y : Int) :
    TrendPoint :=
  match (yearEntries gender y records).find? (fun e => upperStr e.name = key) with
  | some agg =>
      { year := y, present := true, count := agg.count,
        rank := ((lookupRank (buildRanks (yearStandings gender y records)) key).getD 0 : Nat) }
  | none => { year := y, present := false, rank := 0, count := 0 }

/-- The display name chosen for a requested key: the first-seen casing.
Go iterates the `yearly` map in unspecified order; we fix the ascending
year order (the choice only affects the display casing, about which
nothing is claimed). -/
def displayFor (records : List Record) (gender : String) (years : List Int)
    (key : String) : Option String :=
  years.foldl
    (fun acc y =>
      match acc with
      | some d => some d
      | none => ((yearEntries gender y records).find? (fun e => upperStr e.name = key)).map
          (·.name))
    none

/-- One step of the `totals[r.Year] += r.Count` map update. -/
def bumpTotal (y c : Int) : List (Int × Int) → List (Int × Int)
  | [] => [(y, c)]
  | p :: rest => if p.1 = y then (p.1, p.2 + c) :: rest else p :: bumpTotal y c rest

/-- The per-year totals map of `Trend`, as an insertion-ordered list. -/
def trendTotals (gender : String) (records : List Record) : List (Int × Int) :=
  records.foldl
    (fun m r => if genderPasses gender r then bumpTotal r.year r.count m else m) []

/-- `Trend`: per-year rank and count for the requested names. -/
def Trend (records : List Record) (gender0 : String) (names : List String) :
    Except Err (List Int × List TrendSeries × List (Int × Int)) :=
  let gender := upperStr (trimStr gender0)
  let requested := dedupeNames names
  if requested.isEmpty then .error .nameListEmpty
  else
    let yearsRaw := yearsOf gender records
    if yearsRaw.isEmpty then .error .noMatching
    else
      let years := sortInts yearsRaw
      let series := requested.map fun req =>
        { name := (displayFor records gender years req.1).getD req.2,
          points := years.map fun y => pointFor records gender req.1 y : TrendSeries }
      .ok (years, series, trendTotals gender records)

/-! ## Order facts for the sort comparator -/

theorem strLt_asymm {a b : String} (h : strLt a b) : ¬ strLt b a :=
  (inferInstance : IsAsymm (List Char) (List.Lex (· < ·))).asymm a.data b.data h

theorem strLt_conn (a b c : String) (h : strLt a c) : strLt a b ∨ strLt b c :=
  (inferInstance : IsOrderConnected (List Char) (List.Lex (· < ·))).conn a.data b.data c.data h

theorem strLt_trichotomy (a b : String) : strLt a b ∨ a = b ∨ strLt b a := by
  rcases (inferInstance : IsTrichotomous (List Char) (List.Lex (· < ·))).trichotomous
      a.data b.data with h | h | h
  · exact Or.inl h
  · exact Or.inr (Or.inl (congrArg String.mk h))
  · exact Or.inr (Or.inr h)

instance : IsTrans NameCount aggLE := by
  constructor
  intro a b c hab hbc
  rcases hab with hab | ⟨hab1, hab2⟩ <;> rcases hbc with hbc | ⟨hbc1, hbc2⟩
  · exact Or.inl (lt_trans hbc hab)
  · exact Or.inl (hbc1 ▸ hab)
  · exact Or.inl (hab1 ▸ hbc)
  · refine Or.inr ⟨hab1.trans hbc1, fun hlt => ?_⟩
    rcases strLt_conn c.name b.name a.name hlt with h | h
    · exact hbc2 h
    · exact hab2 h

instance : IsTotal NameCount aggLE := by
  constructor
  intro a b
  rcases lt_trichotomy a.count b.count with h | h | h
  · exact Or.inr (Or.inl h)
  · by_cases hba : strLt b.name a.name
    · exact Or.inr (Or.inr ⟨h.symm, fun hab => strLt_asymm hba hab⟩)
    · exact Or.inl (Or.inr ⟨h, hba⟩)
  · exact Or.inl (Or.inl h)

instance : IsAntisymm NameCount aggLE := by
  constructor
  intro a b hab hba
  rcases hab with hab | ⟨hab1, hab2⟩ <;> rcases hba with hba | ⟨hba1, hba2⟩
  · exact absurd hab (lt_asymm hba)
  · exact absurd hab (hba1 ▸ lt_irrefl _)
  · exact absurd hba (hab1 ▸ lt_irrefl _)
  · have hname : a.name = b.name := by
      rcases strLt_trichotomy a.name b.name with h | h | h
      · exact absurd h hba2
      · exact h
      · exact absurd h hab2
    obtain ⟨an, ac⟩ := a
    obtain ⟨bn, bc⟩ := b
    simp only at hname hab1
    rw [hname, hab1]

theorem sortAgg_perm (l : List NameCount) : (sortAgg l).Perm l :=
  List.perm_insertionSort aggLE l

theorem sortAgg_sorted (l : List NameCount) : (sortAgg l).Sorted aggLE :=
  List.sorted_insertionSort aggLE l

theorem sortAgg_eq_of_perm {a b : List NameCount} (h : a.Perm b) : sortAgg a = sortAgg b :=
  List.eq_of_perm_of_sorted (((sortAgg_perm a).trans h).trans (sortAgg_perm b).symm)
    (sortAgg_sorted a) (sortAgg_sorted b)

/-- An `aggLE`-ordered pair of entries with distinct names is strictly
ordered by the Go comparator. -/
theorem nameCountLess_of_aggLE_ne {a b : NameCount} (hle : aggLE a b)
    (hne : a.name ≠ b.name) : nameCountLess a b := by
  unfold nameCountLess
  rcases hle with h | ⟨h1, h2⟩
  · rw [if_neg (by exact fun hc => absurd h (hc ▸ lt_irrefl _))]
    exact h
  · rw [if_pos h1]
    rcases strLt_trichotomy a.name b.name with h | h | h
    · exact h
    · exact absurd h hne
    · exact absurd h h2

/-! ## Grouping-loop lemmas -/

theorem bump_sum (r : Record) (acc : List NameCount) :
    ((bump r acc).map (fun e => e.count)).sum = ((acc.map fun e => e.count)).sum + r.count := by
  induction acc with
  | nil => simp [bump]
  | cons e rest ih =>
      by_cases h : upperStr e.name = upperStr r.name
      · simp [bump, h]
        ring
      · simp [bump, h, ih]
        ring

theorem mem_keys_bump (r : Record) (acc : List NameCount) (k : String) :
    k ∈ (bump r acc).map (fun e => upperStr e.name) ↔
      (k ∈ acc.map (fun e => upperStr e.name) ∨ k = upperStr r.name) := by
  induction acc with
  | nil => simp [bump, eq_comm]
  | cons e rest ih =>
      by_cases h : upperStr e.name = upperStr r.name
      · simp only [bump, if_pos h, List.map_cons, List.mem_cons]
        constructor
        · rintro (hk | hk)
          · exact Or.inl (Or.inl hk)
          · exact Or.inl (Or.inr hk)
        · rintro ((hk | hk) | hk)
          · exact Or.inl hk
          · exact Or.inr hk
          · exact Or.inl (h ▸ hk)
      · simp only [bump, if_neg h, List.map_cons, List.mem_cons, ih]
        tauto

theorem nodup_keys_bump (r : Record) (acc : List NameCount)
    (h : (acc.map (fun e => upperStr e.name)).Nodup) :
    ((bump r acc).map (fun e => upperStr e.name)).Nodup := by
  induction acc with
  | nil => simp [bump]
  | cons e rest ih =>
      simp only [List.map_cons, List.nodup_cons] at h
      by_cases he : upperStr e.name = upperStr r.name
      · simpa [bump, he, List.nodup_cons] using h
      · simp only [bump, if_neg he, List.map_cons, List.nodup_cons]
        refine ⟨fun hmem => ?_, ih h.2⟩
        rcases (mem_keys_bump r rest _).mp hmem with hk | hk
        · exact h.1 hk
        · exact he hk

theorem sumKey_bump (r : Record) (acc : List NameCount) (k : String) :
    (((bump r acc).filter (fun e => upperStr e.name == k)).map (fun e => e.count)).sum =
      (((acc.filter (fun e => upperStr e.name == k)).map (fun e => e.count)).sum +
        if upperStr r.name = k then r.count else 0) := by
  induction acc with
  | nil =>
      by_cases hk : upperStr r.name = k
      · simp [bump, hk]
      · simp [bump, hk]
  | cons e rest ih =>
      by_cases he : upperStr e.name = upperStr r.name
      · by_cases hk : upperStr r.name = k
        · simp [bump, he, List.filter_cons, he.trans hk, hk]
          ring
        · have hek : ¬ (upperStr e.name = k) := fun hc => hk (he ▸ hc)
          simp [bump, he, List.filter_cons, hek, hk]
      · simp only [bump, if_neg he, List.filter_cons]
        by_cases hek : upperStr e.name = k
        · simp [hek, ih]
          ring
        · simp [hek, ih]

theorem accumulate_sum_general (p : Record → Bool) (records : List Record)
    (acc : List NameCount) :
    (((records.foldl (fun acc r => if p r then bump r acc else acc) acc).map
        (fun e => e.count)).sum) =
      ((acc.map fun e => e.count)).sum + (((records.filter p).map (fun r => r.count)).sum) := by
  induction records generalizing acc with
  | nil => simp
  | cons r rs ih =>
      by_cases hp : p r
      · simp only [List.foldl_cons, List.filter_cons, hp, if_true, List.map_cons, List.sum_cons]
        rw [ih, bump_sum]
        ring
      · simp [List.foldl_cons, List.filter_cons, hp, ih]

/-- Aggregation conservation at the grouping level: the total of the
grouped counts equals the total over the records passing the filter. -/
theorem accumulate_sum (p : Record → Bool) (records : List Record) :
    ((accumulate p records).map (fun e => e.count)).sum =
      ((records.filter p).map (fun r => r.count)).sum := by
  unfold accumulate
  rw [accumulate_sum_general]
  simp

theorem mem_keys_accumulate_general (p : Record → Bool) (records : List Record)
    (acc : List NameCount) (k : String) :
    (k ∈ (records.foldl (fun acc r => if p r then bump r acc else acc) acc).map
        (fun e => upperStr e.name)) ↔
      (k ∈ acc.map (fun e => upperStr e.name) ∨
        ∃ r ∈ records, p r = true ∧ upperStr r.name = k) := by
  induction records generalizing acc with
  | nil => simp
  | cons r rs ih =>
      by_cases hp : p r
      · simp only [List.foldl_cons, if_pos hp, ih, mem_keys_bump, List.mem_cons]
        constructor
        · rintro ((hk | hk) | hk)
          · exact Or.inl hk
          · exact Or.inr ⟨r, Or.inl rfl, hp, hk.symm⟩
          · rcases hk with ⟨r2, hr2, hpr2, hk2⟩
            exact Or.inr ⟨r2, Or.inr hr2, hpr2, hk2⟩
        · rintro (hk | ⟨r2, (rfl | hr2), hpr2, hk2⟩)
          · exact Or.inl (Or.inl hk)
          · exact Or.inl (Or.inr hk2.symm)
          · exact Or.inr ⟨r2, hr2, hpr2, hk2⟩
      · simp only [List.foldl_cons, if_neg hp, ih, List.mem_cons]
        constructor
        · rintro (hk | ⟨r2, hr2, hpr2, hk2⟩)
          · exact Or.inl hk
          · exact Or.inr ⟨r2, Or.inr hr2, hpr2, hk2⟩
        · rintro (hk | ⟨r2, (rfl | hr2), hpr2, hk2⟩)
          · exact Or.inl hk
          · exact absurd hpr2 (by simp [hp])
          · exact Or.inr ⟨r2, hr2, hpr2, hk2⟩

/-- A key appears in the grouped list exactly when some record passing the
filter carries that (upper-cased) name. -/
theorem mem_keys_accumulate (p : Record → Bool) (records : List Record) (k : String) :
    (k ∈ (accumulate p records).map (fun e => upperStr e.name)) ↔
      ∃ r ∈ records, p r = true ∧ upperStr r.name = k := by
  unfold accumulate
  rw [mem_keys_accumulate_general]
  simp

theorem nodup_keys_accumulate_general (p : Record → Bool) (records : List Record)
    (acc : List NameCount) (h : (acc.map (fun e => upperStr e.name)).Nodup) :
    ((records.foldl (fun acc r => if p r then bump r acc else acc) acc).map
        (fun e => upperStr e.name)).Nodup := by
  induction records generalizing acc with
  | nil => simpa using h
  | cons r rs ih =>
      by_cases hp : p r
      · simp only [List.foldl_cons, if_pos hp]
        exact ih _ (nodup_keys_bump r acc h)
      · simp only [List.foldl_cons, if_neg hp]
        exact ih _ h

/-- The grouped list carries pairwise distinct upper-cased keys. -/
theorem nodup_keys_accumulate (p : Record → Bool) (records : List Record) :
    ((accumulate p records).map (fun e => upperStr e.name)).Nodup := by
  unfold accumulate
  exact nodup_keys_accumulate_general p records [] (by simp)

theorem sumKey_accumulate_general (p : Record → Bool) (records : List Record)
    (acc : List NameCount) (k : String) :
    ((((records.foldl (fun acc r => if p r then bump r acc else acc) acc).filter
          (fun e => upperStr e.name == k)).map (fun e => e.count)).sum) =
      (((acc.filter (fun e => upperStr e.name == k)).map (fun e => e.count)).sum +
        (((records.filter (fun r => p r && (upperStr r.name == k))).map
          (fun r => r.count)).sum)) := by
  induction records generalizing acc with
  | nil => simp
  | cons r rs ih =>
      by_cases hp : p r
      · simp only [List.foldl_cons, List.filter_cons, hp, if_true, Bool.true_and]
        rw [ih, sumKey_bump]
        by_cases hk : upperStr r.name = k
        · simp [hk]
          ring
        · simp [hk]
      · simp only [List.foldl_cons, if_neg hp, List.filter_cons]
        rw [ih]
        simp [hp]

/-- Per-key conservation: the grouped count of a key is the sum of the
counts of the records passing the filter that carry that key. -/
theorem sumKey_accumulate (p : Record → Bool) (records : List Record) (k : String) :
    ((((accumulate p records).filter (fun e => upperStr e.name == k)).map
        (fun e => e.count)).sum) =
      (((records.filter (fun r => p r && (upperStr r.name == k))).map
        (fun r => r.count)).sum) := by
  unfold accumulate
  rw [sumKey_accumulate_general]
  simp

/-! ## Rank-map lemmas -/

theorem lookupRank_foldl_of_notmem (k : String) (l : List (String × Nat))
    (acc : Option Nat) (h : ∀ p ∈ l, p.1 ≠ k) :
    l.foldl (fun acc p => if p.1 = k then some p.2 else acc) acc = acc := by
  induction l generalizing acc with
  | nil => rfl
  | cons p rest ih =>
      rw [List.foldl_cons, if_neg (h p (List.mem_cons_self p rest))]
      exact ih acc fun q hq => h q (List.mem_cons_of_mem p hq)

/-- On a map with pairwise distinct keys, lookup finds the stored pair. -/
theorem lookupRank_of_nodup_mem {k : String} {v : Nat} {l : List (String × Nat)}
    (hnd : (l.map Prod.fst).Nodup) (hmem : (k, v) ∈ l) : lookupRank l k = some v := by
  induction l with
  | nil => cases hmem
  | cons p rest ih =>
      simp only [List.map_cons, List.nodup_cons] at hnd
      rcases List.mem_cons.mp hmem with hp | hp
      · have hk : p.1 = k := by rw [← hp]
        unfold lookupRank
        rw [List.foldl_cons, if_pos hk]
        have : p.2 = v := by rw [← hp]
        rw [this]
        exact lookupRank_foldl_of_notmem k rest (some v) fun q hq hc =>
          hnd.1 (by rw [hk, ← hc]; exact List.mem_map_of_mem Prod.fst hq)
      · have hk : p.1 ≠ k := fun hc => by
          have : k ∈ rest.map Prod.fst := by
            have := List.mem_map_of_mem Prod.fst hp
            simpa using this
          exact hnd.1 (hc ▸ this)
        unfold lookupRank at ih ⊢
        rw [List.foldl_cons, if_neg hk]
        exact ih hnd.2 hp

theorem lookupRank_foldl_some_inv {k : String} {v : Nat} (l : List (String × Nat)) :
    ∀ acc, l.foldl (fun acc p => if p.1 = k then some p.2 else acc) acc = some v →
      (k, v) ∈ l ∨ acc = some v := by
  induction l with
  | nil => exact fun acc h => Or.inr h
  | cons p rest ih =>
      intro acc h
      rw [List.foldl_cons] at h
      rcases ih _ h with hmem | hacc
      · exact Or.inl (List.mem_cons_of_mem p hmem)
      · by_cases hk : p.1 = k
        · rw [if_pos hk] at hacc
          have hv : p.2 = v := Option.some_injective _ hacc
          have hkv : (k, v) = p := by
            obtain ⟨p1, p2⟩ := p
            simp only at hk hv
            rw [hk, hv]
          exact Or.inl (by rw [hkv]; exact List.mem_cons_self p rest)
        · rw [if_neg hk] at hacc
          exact Or.inr hacc

/-- Lookup only returns stored pairs. -/
theorem lookupRank_some_mem {k : String} {v : Nat} {l : List (String × Nat)}
    (h : lookupRank l k = some v) : (k, v) ∈ l := by
  rcases lookupRank_foldl_some_inv l none h with hmem | hacc
  · exact hmem
  · cases hacc

theorem lookupRank_foldl_none_inv {k : String} (l : List (String × Nat)) :
    ∀ acc, l.foldl (fun acc p => if p.1 = k then some p.2 else acc) acc = none →
      (∀ p ∈ l, p.1 ≠ k) ∧ acc = none := by
  induction l with
  | nil => exact fun acc h => ⟨by simp, h⟩
  | cons p rest ih =>
      intro acc h
      rw [List.foldl_cons] at h
      rcases ih _ h with ⟨hrest, hstep⟩
      by_cases hk : p.1 = k
      · rw [if_pos hk] at hstep
        cases hstep
      · rw [if_neg hk] at hstep
        refine ⟨fun q hq => ?_, hstep⟩
        rcases List.mem_cons.mp hq with hq | hq
        · exact hq ▸ hk
        · exact hrest q hq

/-- Lookup fails exactly on absent keys. -/
theorem lookupRank_eq_none_iff (k : String) (l : List (String × Nat)) :
    lookupRank l k = none ↔ k ∉ l.map Prod.fst := by
  constructor
  · intro h hmem
    rcases List.mem_map.mp hmem with ⟨p, hp, hpk⟩
    exact (lookupRank_foldl_none_inv l none h).1 p hp hpk
  · intro h
    exact lookupRank_foldl_of_notmem k l none fun p hp hc =>
      h (hc ▸ List.mem_map_of_mem Prod.fst hp)

/-- The rank map's key list is the aggregate's upper-cased name list. -/
theorem buildRanks_keys (l : List NameCount) :
    (buildRanks l).map Prod.fst = l.map (fun e => upperStr e.name) := by
  unfold buildRanks
  rw [List.map_map]
  have : (Prod.fst ∘ fun p : Nat × NameCount => (upperStr p.2.name, p.1 + 1)) =
      (fun e => upperStr e.name) ∘ Prod.snd := rfl
  rw [this, ← List.map_map, List.enum_map_snd]

/-- Every position of the aggregate contributes its pair to the rank map. -/
theorem mem_buildRanks_of_lt (l : List NameCount) (i : Nat) (h : i < l.length) :
    (upperStr (l.getD i default).name, i + 1) ∈ buildRanks l := by
  unfold buildRanks
  have hget : l[i]? = some (l.getD i default) := by
    rw [List.getElem?_eq_getElem h, List.getD_eq_getElem l default h]
  have : (i, l.getD i default) ∈ l.enum := List.mk_mem_enum_iff_getElem?.mpr hget
  exact List.mem_map_of_mem (fun p : Nat × NameCount => (upperStr p.2.name, p.1 + 1)) this

/-- The rank map only stores a key at the position it occupies. -/
theorem buildRanks_mem_inv {k : String} {v : Nat} {l : List NameCount}
    (h : (k, v) ∈ buildRanks l) :
    ∃ i, i < l.length ∧ v = i + 1 ∧ upperStr ((l.getD i default).name) = k := by
  unfold buildRanks at h
  rcases List.mem_map.mp h with ⟨p, hp, hpk⟩
  have hget := List.mem_enum_iff_getElem?.mp hp
  have hlen : p.1 < l.length := by
    by_contra hge
    rw [List.getElem?_eq_none (Nat.le_of_not_lt hge)] at hget
    cases hget
  refine ⟨p.1, hlen, ?_, ?_⟩
  · have := congrArg Prod.snd hpk
    simpa using this.symm
  · have hsnd : p.2 = l.getD p.1 default := by
      rw [List.getD_eq_getElem l default hlen]
      rw [List.getElem?_eq_getElem hlen] at hget
      exact (Option.some_injective _ hget).symm
    have := congrArg Prod.fst hpk
    simp only at this
    rw [← this, hsnd]

/-! ## Aggregate-level helper lemmas -/

theorem aggregateNames_fst (records : List Record) (year : Int) (gender : String) :
    (AggregateNames records year gender).1 =
      sortAgg (accumulate (recordPasses year (upperStr (trimStr gender))) records) := rfl

theorem aggregateNames_snd (records : List Record) (year : Int) (gender : String) :
    (AggregateNames records year gender).2 =
      buildRanks (sortAgg (accumulate (recordPasses year (trimStr gender |> upperStr)) records)) :=
  rfl

/-- The sorted aggregate still has pairwise distinct upper-cased keys. -/
theorem aggregateNames_keys_nodup (records : List Record) (year : Int) (gender : String) :
    ((AggregateNames records year gender).1.map (fun e => upperStr e.name)).Nodup := by
  rw [aggregateNames_fst]
  have hperm := (sortAgg_perm (accumulate (recordPasses year (upperStr (trimStr gender)))
      records)).map (fun e => upperStr e.name)
  exact hperm.nodup_iff.mpr
    (nodup_keys_accumulate (recordPasses year (upperStr (trimStr gender))) records)

/-- The aggregate list is strictly sorted by the Go comparator. -/
theorem aggregateNames_pairwise_less (records : List Record) (year : Int) (gender : String) :
    (AggregateNames records year gender).1.Pairwise nameCountLess := by
  have hsorted : (AggregateNames records year gender).1.Pairwise aggLE := by
    rw [aggregateNames_fst]
    exact sortAgg_sorted _
  have hnd : (AggregateNames records year gender).1.Pairwise
      (fun a b : NameCount => upperStr a.name ≠ upperStr b.name) :=
    List.pairwise_map.mp (aggregateNames_keys_nodup records year gender)
  refine (hsorted.and hnd).imp ?_
  rintro a b ⟨hle, hne⟩
  exact nameCountLess_of_aggLE_ne hle fun hc => hne (by rw [hc])

/-! ## Claim theorems: aggregation and rank -/

/-- C2: the sum of the aggregated counts returned by `AggregateNames`
equals the sum of the counts of the input records passing the
(year, gender) filter, for every record slice and every filter pair. -/
theorem aggregateNames_conservation (records : List Record) (year : Int) (gender : String) :
    ((AggregateNames records year gender).1.map (fun e => e.count)).sum =
      (((records.filter (recordPasses year (upperStr (trimStr gender)))).map
        (fun r => r.count)).sum) := by
  rw [aggregateNames_fst]
  rw [← accumulate_sum (recordPasses year (upperStr (trimStr gender))) records]
  exact ((sortAgg_perm _).map (fun e => e.count)).sum_eq

/-- C4: the list returned by `AggregateNames` is strictly sorted by the Go
comparator (count descending, ties by case-sensitive ordinal name
ascending), and the sort output is uniquely determined by the grouped
multiset: any enumeration order of the grouping map sorts to the same
list, so the result does not depend on hash-map iteration order. -/
theorem aggregateNames_sorted_deterministic (records : List Record) (year : Int)
    (gender : String) :
    (AggregateNames records year gender).1.Pairwise nameCountLess ∧
      ∀ l : List NameCount,
        l.Perm (accumulate (recordPasses year (upperStr (trimStr gender))) records) →
        sortAgg l = (AggregateNames records year gender).1 := by
  refine ⟨aggregateNames_pairwise_less records year gender, fun l hl => ?_⟩
  rw [aggregateNames_fst]
  exact sortAgg_eq_of_perm hl

/-- Witness for C4 on the spec scenario: the two enumeration orders of the
grouped entries sort to the same strictly sorted list. -/
theorem aggregateNames_sorted_deterministic_witness :
    (AggregateNames [⟨"CA", "F", 2019, "Olivia", 100⟩, ⟨"CA", "F", 2019, "Olivia", 40⟩,
        ⟨"CA", "F", 2019, "Emma", 90⟩] 2019 "F").1.Pairwise nameCountLess ∧
      sortAgg [⟨"Emma", 90⟩, ⟨"Olivia", 140⟩] =
        (AggregateNames [⟨"CA", "F", 2019, "Olivia", 100⟩, ⟨"CA", "F", 2019, "Olivia", 40⟩,
          ⟨"CA", "F", 2019, "Emma", 90⟩] 2019 "F").1 :=
  ⟨(aggregateNames_sorted_deterministic _ _ _).1,
    (aggregateNames_sorted_deterministic [⟨"CA", "F", 2019, "Olivia", 100⟩,
      ⟨"CA", "F", 2019, "Olivia", 40⟩, ⟨"CA", "F", 2019, "Emma", 90⟩] 2019 "F").2
      [⟨"Emma", 90⟩, ⟨"Olivia", 140⟩] (by decide)⟩

/-- C5 counterexample: with two records of equal count named "Z" and "a",
the aggregate orders "Z" before "a" (case-sensitive ordinal order), but
case-insensitively "A" < "Z", so the earlier entry does NOT precede the
later one under case-insensitive comparison, refuting the claim. -/
theorem aggregateNames_tie_case_insensitive_cex :
    (AggregateNames [⟨"CA", "F", 2019, "Z", 5⟩, ⟨"CA", "F", 2019, "a", 5⟩] 0 "").1 =
        [⟨"Z", 5⟩, ⟨"a", 5⟩] ∧
      ((AggregateNames [⟨"CA", "F", 2019, "Z", 5⟩, ⟨"CA", "F", 2019, "a", 5⟩] 0
          "").1.getD 0 default).count =
        ((AggregateNames [⟨"CA", "F", 2019, "Z", 5⟩, ⟨"CA", "F", 2019, "a", 5⟩] 0
          "").1.getD 1 default).count ∧
      ¬ strLt
        (upperStr ((AggregateNames [⟨"CA", "F", 2019, "Z", 5⟩, ⟨"CA", "F", 2019, "a", 5⟩] 0
          "").1.getD 0 default).name)
        (upperStr ((AggregateNames [⟨"CA", "F", 2019, "Z", 5⟩, ⟨"CA", "F", 2019, "a", 5⟩] 0
          "").1.getD 1 default).name) := by
  decide

/-- C5 (amended): whenever two adjacent aggregate entries have equal
counts, the earlier entry's name strictly precedes the later one under
case-SENSITIVE ordinal comparison (the code's tie-break; the
case-insensitive ordering stated in the spec does not hold). -/
theorem aggregateNames_tie_case_sensitive (records : List Record) (year : Int)
    (gender : String) (i : Nat)
    (h : i + 1 < (AggregateNames records year gender).1.length)
    (hc : ((AggregateNames records year gender).1.getD i default).count =
      ((AggregateNames records year gender).1.getD (i + 1) default).count) :
    strLt ((AggregateNames records year gender).1.getD i default).name
      ((AggregateNames records year gender).1.getD (i + 1) default).name := by
  have hi : i < (AggregateNames records year gender).1.length := Nat.lt_of_succ_lt h
  have hpw := aggregateNames_pairwise_less records year gender
  rw [List.pairwise_iff_getElem] at hpw
  have hless := hpw i (i + 1) hi h (Nat.lt_succ_self i)
  rw [List.getD_eq_getElem _ default hi, List.getD_eq_getElem _ default h] at hc ⊢
  unfold nameCountLess at hless
  rwa [if_pos hc] at hless

/-- Witness for C5's amended theorem: a concrete tie is broken by
case-sensitive name order. -/
theorem aggregateNames_tie_case_sensitive_witness :
    strLt ((AggregateNames [⟨"CA", "F", 2019, "Bob", 5⟩, ⟨"CA", "F", 2019, "Alice", 5⟩] 0
        "").1.getD 0 default).name
      ((AggregateNames [⟨"CA", "F", 2019, "Bob", 5⟩, ⟨"CA", "F", 2019, "Alice", 5⟩] 0
        "").1.getD 1 default).name :=
  aggregateNames_tie_case_sensitive
    [⟨"CA", "F", 2019, "Bob", 5⟩, ⟨"CA", "F", 2019, "Alice", 5⟩] 0 "" 0
    (by decide) (by decide)

/-- C1 counterexample: a record with count 0 passing the filter still
creates an aggregate entry and a rank, so `RankFromAggregate` succeeds
with a zero aggregated count instead of failing with NotFound. -/
theorem rankFromAggregate_zero_count_succeeds :
    (AggregateNames [⟨"CA", "F", 2019, "Olivia", 0⟩] 0 "").1 = [⟨"Olivia", 0⟩] ∧
      RankFromAggregate (AggregateNames [⟨"CA", "F", 2019, "Olivia", 0⟩] 0 "").1
        (AggregateNames [⟨"CA", "F", 2019, "Olivia", 0⟩] 0 "").2 "Olivia" =
        .ok (1, ⟨"Olivia", 0⟩) := by
  decide

/-- C1 (amended): for a non-blank queried name and a non-empty aggregate,
`RankFromAggregate` fails with NotFound exactly when NO input record
passing the filter carries the queried name (case-insensitively).  A name
whose filtered records sum to count 0 is still present and does not fail. -/
theorem rankFromAggregate_notFound_iff_absent (records : List Record) (year : Int)
    (gender : String) (name : String) (hname : trimStr name ≠ "")
    (hne : (AggregateNames records year gender).1 ≠ []) :
    (RankFromAggregate (AggregateNames records year gender).1
        (AggregateNames records year gender).2 name = .error (.notFound name)) ↔
      ¬ ∃ r ∈ records, recordPasses year (upperStr (trimStr gender)) r = true ∧
        upperStr r.name = upperStr name := by
  have hkey : (upperStr name ∈ (AggregateNames records year gender).1.map
      (fun e => upperStr e.name)) ↔
      ∃ r ∈ records, recordPasses year (upperStr (trimStr gender)) r = true ∧
        upperStr r.name = upperStr name := by
    rw [aggregateNames_fst]
    have hperm := (sortAgg_perm (accumulate (recordPasses year (upperStr (trimStr gender)))
        records)).map (fun e => upperStr e.name)
    rw [hperm.mem_iff]
    exact mem_keys_accumulate _ records (upperStr name)
  unfold RankFromAggregate
  rw [if_neg hname, if_neg (by simpa [List.isEmpty_iff] using hne)]
  constructor
  · intro h hex
    rcases hlk : lookupRank (AggregateNames records year gender).2 (upperStr name) with _ | v
    · have hnone := (lookupRank_eq_none_iff (upperStr name)
        (AggregateNames records year gender).2).mp hlk
      rw [aggregateNames_snd, buildRanks_keys] at hnone
      exact hnone (by rw [← aggregateNames_fst] at *; exact hkey.mpr hex)
    · rw [hlk] at h
      cases h
  · intro hnex
    rcases hlk : lookupRank (AggregateNames records year gender).2 (upperStr name) with _ | v
    · rfl
    · exfalso
      have hmem := lookupRank_some_mem hlk
      have : upperStr name ∈ ((AggregateNames records year gender).2).map Prod.fst :=
        List.mem_map_of_mem Prod.fst hmem
      rw [aggregateNames_snd, buildRanks_keys, ← aggregateNames_fst] at this
      exact hnex (hkey.mp this)

/-- Witness for C1's amended theorem: the name "Liam" appears in no record,
so the lookup fails with NotFound. -/
theorem rankFromAggregate_notFound_iff_absent_witness :
    RankFromAggregate (AggregateNames [⟨"CA", "F", 2019, "Olivia", 100⟩,
        ⟨"CA", "F", 2019, "Emma", 90⟩] 0 "").1
      (AggregateNames [⟨"CA", "F", 2019, "Olivia", 100⟩,
        ⟨"CA", "F", 2019, "Emma", 90⟩] 0 "").2 "Liam" = .error (.notFound "Liam") :=
  (rankFromAggregate_notFound_iff_absent [⟨"CA", "F", 2019, "Olivia", 100⟩,
      ⟨"CA", "F", 2019, "Emma", 90⟩] 0 "" "Liam" (by decide) (by decide)).mpr
    (by decide)

/-- C3 counterexample: an aggregate entry whose display name is entirely
whitespace is rejected by `RankFromAggregate`'s blank-name guard, so
rank consistency fails at that entry. -/
theorem aggregateNames_rank_blank_name_cex :
    (AggregateNames [⟨"CA", "F", 2019, " ", 5⟩] 0 "").1 = [⟨" ", 5⟩] ∧
      RankFromAggregate (AggregateNames [⟨"CA", "F", 2019, " ", 5⟩] 0 "").1
        (AggregateNames [⟨"CA", "F", 2019, " ", 5⟩] 0 "").2
        ((AggregateNames [⟨"CA", "F", 2019, " ", 5⟩] 0 "").1.getD 0 default).name =
        .error .nameRequired := by
  decide

/-- C3 (amended): for every index `i` of the aggregate, the rank map sends
the entry's upper-cased name to `i + 1`, and `RankFromAggregate` on any
case-variant of the entry's name that is not entirely whitespace returns
`(i + 1, aggregated[i])` with no error. -/
theorem aggregateNames_rank_consistency (records : List Record) (year : Int)
    (gender : String) (i : Nat) (q : String)
    (hi : i < (AggregateNames records year gender).1.length)
    (hq : upperStr q = upperStr (((AggregateNames records year gender).1.getD i default).name))
    (hqt : trimStr q ≠ "") :
    lookupRank (AggregateNames records year gender).2
        (upperStr (((AggregateNames records year gender).1.getD i default).name)) =
      some (i + 1) ∧
    RankFromAggregate (AggregateNames records year gender).1
        (AggregateNames records year gender).2 q =
      .ok (i + 1, (AggregateNames records year gender).1.getD i default) := by
  have hnd : (((AggregateNames records year gender).2).map Prod.fst).Nodup := by
    rw [aggregateNames_snd, buildRanks_keys, ← aggregateNames_fst]
    exact aggregateNames_keys_nodup records year gender
  have hmem : (upperStr (((AggregateNames records year gender).1.getD i default).name), i + 1) ∈
      (AggregateNames records year gender).2 := by
    rw [aggregateNames_snd]
    rw [aggregateNames_fst] at hi ⊢
    exact mem_buildRanks_of_lt _ i hi
  have hlk := lookupRank_of_nodup_mem hnd hmem
  refine ⟨hlk, ?_⟩
  unfold RankFromAggregate
  rw [if_neg hqt, if_neg (by
    simp only [List.isEmpty_iff]
    exact List.ne_nil_of_length_pos (Nat.lt_of_le_of_lt (Nat.zero_le i) hi))]
  rw [hq, hlk]
  simp

/-- Witness for C3's amended theorem on the spec scenario: querying "emma"
returns rank 2 with the Emma entry. -/
theorem aggregateNames_rank_consistency_witness :
    lookupRank (AggregateNames [⟨"CA", "F", 2019, "Olivia", 100⟩,
        ⟨"CA", "F", 2019, "Olivia", 40⟩, ⟨"CA", "F", 2019, "Emma", 90⟩] 2019 "F").2
      (upperStr (((AggregateNames [⟨"CA", "F", 2019, "Olivia", 100⟩,
        ⟨"CA", "F", 2019, "Olivia", 40⟩, ⟨"CA", "F", 2019, "Emma", 90⟩] 2019
        "F").1.getD 1 default).name)) = some 2 ∧
    RankFromAggregate (AggregateNames [⟨"CA", "F", 2019, "Olivia", 100⟩,
        ⟨"CA", "F", 2019, "Olivia", 40⟩, ⟨"CA", "F", 2019, "Emma", 90⟩] 2019 "F").1
      (AggregateNames [⟨"CA", "F", 2019, "Olivia", 100⟩,
        ⟨"CA", "F", 2019, "Olivia", 40⟩, ⟨"CA", "F", 2019, "Emma", 90⟩] 2019 "F").2
      "emma" = .ok (2, (AggregateNames [⟨"CA", "F", 2019, "Olivia", 100⟩,
        ⟨"CA", "F", 2019, "Olivia", 40⟩, ⟨"CA", "F", 2019, "Emma", 90⟩] 2019
        "F").1.getD 1 default) :=
  aggregateNames_rank_consistency [⟨"CA", "F", 2019, "Olivia", 100⟩,
    ⟨"CA", "F", 2019, "Olivia", 40⟩, ⟨"CA", "F", 2019, "Emma", 90⟩] 2019 "F" 1 "emma"
    (by decide) (by decide) (by decide)

/-! ## Sampler lemmas -/

theorem checkTotal_ok (l : List NameCount) (h : ∀ e ∈ l, 0 ≤ e.count) :
    checkTotal l = .ok ((l.map (fun e => e.count)).sum) := by
  induction l with
  | nil => rfl
  | cons e rest ih =>
      unfold checkTotal
      rw [if_neg (not_lt.mpr (h e (List.mem_cons_self e rest)))]
      rw [ih fun q hq => h q (List.mem_cons_of_mem e hq)]
      simp [Except.map]

theorem checkTotal_ok_inv (l : List NameCount) (t : Int) (h : checkTotal l = .ok t) :
    (∀ e ∈ l, 0 ≤ e.count) ∧ t = (l.map (fun e => e.count)).sum := by
  induction l generalizing t with
  | nil =>
      cases h
      exact ⟨by simp, by simp⟩
  | cons e rest ih =>
      unfold checkTotal at h
      by_cases hneg : e.count < 0
      · rw [if_pos hneg] at h
        cases h
      · rw [if_neg hneg] at h
        rcases hrest : checkTotal rest with msg | t0
        · rw [hrest] at h
          cases h
        · rw [hrest] at h
          simp only [Except.map] at h
          cases h
          rcases ih t0 hrest with ⟨hnn, hsum⟩
          refine ⟨fun q hq => ?_, by simp [hsum]⟩
          rcases List.mem_cons.mp hq with hq | hq
          · exact hq ▸ not_lt.mp hneg
          · exact hnn q hq

theorem checkTotal_error_iff (l : List NameCount) :
    (∃ e, checkTotal l = .error e) ↔ ∃ x ∈ l, x.count < 0 := by
  constructor
  · rintro ⟨e, he⟩
    by_contra hnn
    push_neg at hnn
    rw [checkTotal_ok l (fun q hq => hnn q hq)] at he
    cases he
  · rintro ⟨x, hx, hneg⟩
    rcases hct : checkTotal l with e | t
    · exact ⟨e, rfl⟩
    · rcases checkTotal_ok_inv l t hct with ⟨hnn, _⟩
      exact absurd hneg (not_lt.mpr (hnn x hx))

theorem foldl_set_one_length (l : List Nat) (p : List ℚ) :
    (l.foldl (fun p idx => p.set idx (1 : ℚ)) p).length = p.length := by
  induction l generalizing p with
  | nil => rfl
  | cons x rest ih => rw [List.foldl_cons, ih, List.length_set]

/-- Invariant of the alias worklist loop: lengths of `prob` and `alias`
are preserved, and every index stored anywhere stays below `n`. -/
theorem voseLoop_spec (n : Nat) : ∀ (fuel : Nat) (scaled prob : List ℚ)
    (aliasArr small large : List Nat),
    prob.length = n → aliasArr.length = n → (∀ x ∈ aliasArr, x < n) →
    (∀ x ∈ small, x < n) → (∀ x ∈ large, x < n) →
    (voseLoop fuel scaled prob aliasArr small large).1.length = n ∧
      (voseLoop fuel scaled prob aliasArr small large).2.1.length = n ∧
      (∀ x ∈ (voseLoop fuel scaled prob aliasArr small large).2.1, x < n) ∧
      (∀ x ∈ (voseLoop fuel scaled prob aliasArr small large).2.2.1, x < n) ∧
      (∀ x ∈ (voseLoop fuel scaled prob aliasArr small large).2.2.2, x < n) := by
  intro fuel
  induction fuel with
  | zero =>
      intro scaled prob aliasArr small large hp ha hav hs hl
      exact ⟨hp, ha, hav, hs, hl⟩
  | succ fuel ih =>
      intro scaled prob aliasArr small large hp ha hav hs hl
      match small, large with
      | [], large =>
          simp only [voseLoop]
          exact ⟨hp, ha, hav, by simp, hl⟩
      | s0 :: smallRest, [] =>
          simp only [voseLoop]
          exact ⟨hp, ha, hav, hs, by simp⟩
      | s0 :: smallRest, l0 :: largeRest =>
          have hs0 : s0 < n := hs s0 (List.mem_cons_self _ _)
          have hl0 : l0 < n := hl l0 (List.mem_cons_self _ _)
          have hsRest : ∀ x ∈ smallRest, x < n :=
            fun x hx => hs x (List.mem_cons_of_mem _ hx)
          have hlRest : ∀ x ∈ largeRest, x < n :=
            fun x hx => hl x (List.mem_cons_of_mem _ hx)
          have haSet : ∀ x ∈ aliasArr.set s0 l0, x < n := fun x hx => by
            rcases List.mem_or_eq_of_mem_set hx with hx | hx
            · exact hav x hx
            · exact hx ▸ hl0
          simp only [voseLoop]
          split
          · exact ih _ _ _ _ _ (by simpa using hp) (by simpa using ha) haSet
              (fun x hx => by
                rcases List.mem_cons.mp hx with hx | hx
                · exact hx ▸ hl0
                · exact hsRest x hx)
              hlRest
          · exact ih _ _ _ _ _ (by simpa using hp) (by simpa using ha) haSet
              hsRest
              (fun x hx => by
                rcases List.mem_cons.mp hx with hx | hx
                · exact hx ▸ hl0
                · exact hlRest x hx)

theorem vose_prob_length (n : Nat) (scaled : List ℚ) (small0 large0 : List Nat) (fuel : Nat)
    (hs : ∀ x ∈ small0, x < n) (hl : ∀ x ∈ large0, x < n) :
    (List.foldl (fun p idx => p.set idx (1 : ℚ))
        (List.foldl (fun p idx => p.set idx (1 : ℚ))
          (voseLoop fuel scaled (List.replicate n 0) (List.range n) small0 large0).1
          (voseLoop fuel scaled (List.replicate n 0) (List.range n) small0 large0).2.2.2)
        (voseLoop fuel scaled (List.replicate n 0) (List.range n) small0 large0).2.2.1).length =
      n := by
  rw [foldl_set_one_length, foldl_set_one_length]
  exact (voseLoop_spec n fuel scaled (List.replicate n 0) (List.range n) small0 large0
    (by simp) (by simp) (fun x hx => List.mem_range.mp hx) hs hl).1

theorem vose_alias_length (n : Nat) (scaled : List ℚ) (small0 large0 : List Nat) (fuel : Nat)
    (hs : ∀ x ∈ small0, x < n) (hl : ∀ x ∈ large0, x < n) :
    (voseLoop fuel scaled (List.replicate n 0) (List.range n) small0 large0).2.1.length = n :=
  (voseLoop_spec n fuel scaled (List.replicate n 0) (List.range n) small0 large0
    (by simp) (by simp) (fun x hx => List.mem_range.mp hx) hs hl).2.1

theorem vose_alias_mem (n : Nat) (scaled : List ℚ) (small0 large0 : List Nat) (fuel : Nat)
    (hs : ∀ x ∈ small0, x < n) (hl : ∀ x ∈ large0, x < n) :
    ∀ j ∈ (voseLoop fuel scaled (List.replicate n 0) (List.range n) small0 large0).2.1,
      j < n :=
  (voseLoop_spec n fuel scaled (List.replicate n 0) (List.range n) small0 large0
    (by simp) (by simp) (fun x hx => List.mem_range.mp hx) hs hl).2.2.1

/-- Inversion of a successful `NewNameSampler` build: the entries are the
input, the parallel arrays have the input's length, and every alias index
is in range. -/
theorem newNameSampler_ok_inv (aggregated : List NameCount) (s : NameSampler)
    (h : NewNameSampler aggregated = .ok s) :
    aggregated ≠ [] ∧ s.entries = aggregated ∧
      s.prob.length = aggregated.length ∧ s.aliasArr.length = aggregated.length ∧
      ∀ j ∈ s.aliasArr, j < aggregated.length := by
  unfold NewNameSampler at h
  by_cases hemp : aggregated.isEmpty
  · rw [if_pos hemp] at h
    cases h
  · rw [if_neg hemp] at h
    rcases hct : checkTotal aggregated with e | t
    · rw [hct] at h
      cases h
    · rw [hct] at h
      dsimp only at h
      by_cases ht : t = 0
      · rw [if_pos ht] at h
        cases h
      · rw [if_neg ht] at h
        cases h
        refine ⟨fun hc => hemp (by simp [hc]), rfl, ?_, ?_, ?_⟩
        all_goals dsimp only
        · apply vose_prob_length
          · intro x hx
            simp only [List.mem_reverse, List.mem_filter] at hx
            exact List.mem_range.mp hx.1
          · intro x hx
            simp only [List.mem_reverse, List.mem_filter] at hx
            exact List.mem_range.mp hx.1
        · apply vose_alias_length
          · intro x hx
            simp only [List.mem_reverse, List.mem_filter] at hx
            exact List.mem_range.mp hx.1
          · intro x hx
            simp only [List.mem_reverse, List.mem_filter] at hx
            exact List.mem_range.mp hx.1
        · apply vose_alias_mem
          · intro x hx
            simp only [List.mem_reverse, List.mem_filter] at hx
            exact List.mem_range.mp hx.1
          · intro x hx
            simp only [List.mem_reverse, List.mem_filter] at hx
            exact List.mem_range.mp hx.1

/-- C6: `NewNameSampler` fails exactly when the list is empty, some count
is negative, or the counts sum to zero; on every non-empty list of
non-negative counts with positive total it succeeds. -/
theorem newNameSampler_error_iff (aggregated : List NameCount) :
    ((∃ e, NewNameSampler aggregated = .error e) ↔
      (aggregated = [] ∨ (∃ x ∈ aggregated, x.count < 0) ∨
        (aggregated.map (fun e => e.count)).sum = 0)) ∧
    (aggregated ≠ [] → (∀ x ∈ aggregated, 0 ≤ x.count) →
      0 < (aggregated.map (fun e => e.count)).sum →
      ∃ s, NewNameSampler aggregated = .ok s) := by
  constructor
  · unfold NewNameSampler
    by_cases hemp : aggregated.isEmpty
    · rw [if_pos hemp]
      simp [List.isEmpty_iff.mp hemp]
    · rw [if_neg hemp]
      rcases hct : checkTotal aggregated with e | t
      · dsimp only
        constructor
        · intro _
          exact Or.inr (Or.inl ((checkTotal_error_iff aggregated).mp ⟨e, hct⟩))
        · intro _
          exact ⟨e, rfl⟩
      · rcases checkTotal_ok_inv aggregated t hct with ⟨hnn, hteq⟩
        dsimp only
        by_cases ht : t = 0
        · rw [if_pos ht]
          constructor
          · intro _
            exact Or.inr (Or.inr (by rw [← hteq, ht]))
          · intro _
            exact ⟨.noMass, rfl⟩
        · rw [if_neg ht]
          constructor
          · rintro ⟨e, he⟩
            cases he
          · rintro (hc | ⟨x, hx, hneg⟩ | hsum)
            · exact absurd (by simp [hc]) hemp
            · exact absurd hneg (not_lt.mpr (hnn x hx))
            · exact absurd (hteq.trans hsum) ht
  · intro hne hnn hpos
    unfold NewNameSampler
    rw [if_neg (by simpa [List.isEmpty_iff] using hne)]
    rw [checkTotal_ok aggregated hnn]
    dsimp only
    rw [if_neg (show ¬ (aggregated.map (fun e => e.count)).sum = 0 from
      fun hc => absurd (hc ▸ hpos) (lt_irrefl 0))]
    exact ⟨_, rfl⟩

/-- Witness for C6: the two-entry list with counts 2 and 3 builds a
sampler. -/
theorem newNameSampler_error_iff_witness :
    ∃ s, NewNameSampler [⟨"A", 2⟩, ⟨"B", 3⟩] = .ok s :=
  (newNameSampler_error_iff [⟨"A", 2⟩, ⟨"B", 3⟩]).2 (by decide) (by decide) (by decide)

theorem pick_index_lt (n : Nat) (hn : 0 < n) (u : ℚ) (h0 : 0 ≤ u) (h1 : u < 1) :
    (⌊u * (n : ℚ)⌋).toNat < n := by
  have hlt : u * (n : ℚ) < (n : ℚ) := by
    calc u * (n : ℚ) < 1 * (n : ℚ) :=
          mul_lt_mul_of_pos_right h1 (by exact_mod_cast hn)
      _ = (n : ℚ) := one_mul _
  have hfl : ⌊u * (n : ℚ)⌋ < (n : ℤ) := by
    rw [Int.floor_lt]
    exact_mod_cast hlt
  have hnn : (0 : ℤ) ≤ ⌊u * (n : ℚ)⌋ :=
    Int.floor_nonneg.mpr (mul_nonneg h0 (by positivity))
  omega

/-- C7: a `Pick` on a sampler built by `NewNameSampler` consumes exactly
two random draws — one uniform index in [0, n) and one uniform value in
[0,1) — and returns `entries[i]` when the value is below `prob[i]` and
`entries[alias[i]]` otherwise; the drawn index and the aliased index are
both in range, and the parallel arrays have the entries' length. -/
theorem pick_two_draws (aggregated : List NameCount) (s : NameSampler)
    (h : NewNameSampler aggregated = .ok s) (u1 u2 : ℚ) (rest : List ℚ)
    (h0 : 0 ≤ u1) (h1 : u1 < 1) :
    (⌊u1 * (aggregated.length : ℚ)⌋).toNat < aggregated.length ∧
    s.entries = aggregated ∧
    s.prob.length = aggregated.length ∧
    s.aliasArr.length = aggregated.length ∧
    s.aliasArr.getD ((⌊u1 * (aggregated.length : ℚ)⌋).toNat) 0 < aggregated.length ∧
    Pick s (u1 :: u2 :: rest) =
      .ok ((if u2 < s.prob.getD ((⌊u1 * (aggregated.length : ℚ)⌋).toNat) 0 then
              s.entries.getD ((⌊u1 * (aggregated.length : ℚ)⌋).toNat) default
            else
              s.entries.getD
                (s.aliasArr.getD ((⌊u1 * (aggregated.length : ℚ)⌋).toNat) 0) default),
        rest) := by
  obtain ⟨hne, hent, hplen, halen, hamem⟩ := newNameSampler_ok_inv aggregated s h
  have hn : 0 < aggregated.length := List.length_pos.mpr hne
  have hidx := pick_index_lt aggregated.length hn u1 h0 h1
  have haliasmem :
      s.aliasArr.getD ((⌊u1 * (aggregated.length : ℚ)⌋).toNat) 0 < aggregated.length := by
    have hlt : (⌊u1 * (aggregated.length : ℚ)⌋).toNat < s.aliasArr.length := by
      rw [halen]
      exact hidx
    rw [List.getD_eq_getElem s.aliasArr 0 hlt]
    exact hamem _ (List.getElem_mem hlt)
  refine ⟨hidx, hent, hplen, halen, haliasmem, ?_⟩
  unfold Pick intn float64 takeRand
  rw [hent]
  dsimp only
  rw [if_neg (by simpa [List.isEmpty_iff] using hne)]
  rw [if_neg (show ¬ (s.prob.isEmpty = true ∨ s.aliasArr.isEmpty = true) by
    rintro (hc | hc)
    · exact absurd (List.isEmpty_iff.mp hc)
        (List.ne_nil_of_length_pos (by rw [hplen]; exact hn))
    · exact absurd (List.isEmpty_iff.mp hc)
        (List.ne_nil_of_length_pos (by rw [halen]; exact hn)))]
  split <;> rfl

/-- Witness for C7: drawing index 1 and value 1/4 from the sampler built
on [{A,2},{B,3}] returns B and consumes exactly the two draws. -/
theorem pick_two_draws_witness :
    Pick ⟨[⟨"A", 2⟩, ⟨"B", 3⟩], [4/5, 1], [1, 1], 5⟩ [1/2, 1/4] = .ok (⟨"B", 3⟩, []) := by
  have h := pick_two_draws [⟨"A", 2⟩, ⟨"B", 3⟩]
    ⟨[⟨"A", 2⟩, ⟨"B", 3⟩], [4/5, 1], [1, 1], 5⟩ (by decide) (1/2) (1/4) [] (by decide)
    (by decide)
  rw [h.2.2.2.2.2]
  decide

/-! ## Single-shot selection lemmas -/

theorem cumsum_cons (e : NameCount) (rest : List NameCount) (k : Nat) :
    cumsum (e :: rest) (k + 1) = e.count + cumsum rest k := by
  unfold cumsum
  rw [List.take_succ_cons, List.map_cons, List.sum_cons]

theorem scanPick_mem (pick : Int) :
    ∀ (l : List NameCount) (running : Int) (e : NameCount),
      scanPick pick running l = some e → e ∈ l := by
  intro l
  induction l with
  | nil => intro running e h; cases h
  | cons x rest ih =>
      intro running e h
      unfold scanPick at h
      by_cases hc : pick < running + x.count
      · rw [if_pos hc] at h
        cases h
        exact List.mem_cons_self x rest
      · rw [if_neg hc] at h
        exact List.mem_cons_of_mem x (ih _ e h)

theorem scanPick_spec (pick : Int) :
    ∀ (l : List NameCount) (running : Int),
      running ≤ pick → pick < running + ((l.map fun e => e.count)).sum →
      ∃ i, i < l.length ∧ scanPick pick running l = some (l.getD i default) ∧
        pick < running + cumsum l (i + 1) ∧
        ∀ j < i, running + cumsum l (j + 1) ≤ pick := by
  intro l
  induction l with
  | nil =>
      intro running hle hlt
      simp only [List.map_nil, List.sum_nil, add_zero] at hlt
      exact absurd hle (not_le.mpr hlt)
  | cons e rest ih =>
      intro running hle hlt
      by_cases hc : pick < running + e.count
      · refine ⟨0, Nat.succ_pos _, ?_, ?_, by omega⟩
        · unfold scanPick
          rw [if_pos hc]
          rfl
        · rw [cumsum_cons]
          unfold cumsum
          simpa using hc
      · have hle2 : running + e.count ≤ pick := not_lt.mp hc
        have hlt2 : pick < (running + e.count) + ((rest.map fun e => e.count)).sum := by
          rw [List.map_cons, List.sum_cons] at hlt
          omega
        rcases ih (running + e.count) hle2 hlt2 with ⟨i, hi, hscan, hcum, hprev⟩
        refine ⟨i + 1, Nat.succ_lt_succ hi, ?_, ?_, ?_⟩
        · unfold scanPick
          rw [if_neg hc]
          rw [List.getD_cons_succ]
          exact hscan
        · rw [cumsum_cons]
          omega
        · intro j hj
          cases j with
          | zero =>
              rw [cumsum_cons]
              unfold cumsum
              simpa using hle2
          | succ j0 =>
              rw [cumsum_cons]
              have := hprev j0 (Nat.lt_of_succ_lt_succ hj)
              omega

theorem scanPick_none_of (pick : Int) :
    ∀ (l : List NameCount) (running : Int),
      (∀ k < l.length, running + cumsum l (k + 1) ≤ pick) →
      scanPick pick running l = none := by
  intro l
  induction l with
  | nil => intro running _; rfl
  | cons e rest ih =>
      intro running hall
      unfold scanPick
      have h0 := hall 0 (Nat.succ_pos _)
      rw [cumsum_cons] at h0
      unfold cumsum at h0
      simp only [List.take_zero, List.map_nil, List.sum_nil, add_zero] at h0
      rw [if_neg (not_lt.mpr h0)]
      refine ih (running + e.count) fun k hk => ?_
      have := hall (k + 1) (Nat.succ_lt_succ hk)
      rw [cumsum_cons] at this
      omega

/-- C8: on a non-empty aggregate whose counts sum to the supplied positive
total, the single-shot path consumes one uniform draw in [0, total) and
returns the first entry whose cumulative count sum exceeds the drawn
value; in particular on [{A,2},{B,3}] with total 5 a drawn value of 1
selects A and a drawn value of 4 selects B. -/
theorem randomNameWithTotal_first_exceed :
    (∀ (aggregated : List NameCount) (total : Int) (u : ℚ) (rest : List ℚ),
      aggregated ≠ [] → total = (aggregated.map fun e => e.count).sum → 0 < total →
      0 ≤ u → u < 1 →
      ∃ i, i < aggregated.length ∧
        RandomNameFromAggregateWithTotal aggregated total (u :: rest) =
          .ok (aggregated.getD i default, rest) ∧
        (((⌊u * (total.toNat : ℚ)⌋).toNat : Int) < cumsum aggregated (i + 1) ∧
          ∀ j < i, cumsum aggregated (j + 1) ≤ ((⌊u * (total.toNat : ℚ)⌋).toNat : Int))) ∧
    RandomNameFromAggregateWithTotal [⟨"A", 2⟩, ⟨"B", 3⟩] 5 [1/5] = .ok (⟨"A", 2⟩, []) ∧
    RandomNameFromAggregateWithTotal [⟨"A", 2⟩, ⟨"B", 3⟩] 5 [4/5] = .ok (⟨"B", 3⟩, []) := by
  refine ⟨?_, by decide, by decide⟩
  intro aggregated total u rest hne htot hpos h0 h1
  have hpick0 : (0 : Int) ≤ ((⌊u * (total.toNat : ℚ)⌋).toNat : Int) := Int.ofNat_nonneg _
  have hpicklt : ((⌊u * (total.toNat : ℚ)⌋).toNat : Int) < total := by
    have hnat := pick_index_lt total.toNat (by omega) u h0 h1
    omega
  have hscan := scanPick_spec ((⌊u * (total.toNat : ℚ)⌋).toNat : Int) aggregated 0 hpick0
    (by rw [zero_add, ← htot]; exact hpicklt)
  rcases hscan with ⟨i, hi, hscan, hcum, hprev⟩
  refine ⟨i, hi, ?_, by rw [zero_add] at hcum; exact hcum,
    fun j hj => by have := hprev j hj; omega⟩
  unfold RandomNameFromAggregateWithTotal intn takeRand
  rw [if_neg (by simpa [List.isEmpty_iff] using hne)]
  rw [if_neg (not_le.mpr hpos)]
  dsimp only
  rw [hscan]

/-- Witness for C8's universal part: on [{A,2},{B,3}] with total 5 and a
draw of 1/5 (drawn value 1), some index satisfies the first-exceeding
characterisation. -/
theorem randomNameWithTotal_first_exceed_witness :
    ∃ i, i < ([⟨"A", 2⟩, ⟨"B", 3⟩] : List NameCount).length ∧
      RandomNameFromAggregateWithTotal [⟨"A", 2⟩, ⟨"B", 3⟩] 5 [1/5] =
        .ok (([⟨"A", 2⟩, ⟨"B", 3⟩] : List NameCount).getD i default, []) ∧
      ((((⌊(1/5 : ℚ) * ((5 : Int).toNat : ℚ)⌋).toNat : Int) <
          cumsum [⟨"A", 2⟩, ⟨"B", 3⟩] (i + 1)) ∧
        ∀ j < i, cumsum [⟨"A", 2⟩, ⟨"B", 3⟩] (j + 1) ≤
          (((⌊(1/5 : ℚ) * ((5 : Int).toNat : ℚ)⌋).toNat : Int))) :=
  randomNameWithTotal_first_exceed.1 [⟨"A", 2⟩, ⟨"B", 3⟩] 5 (1/5) []
    (by decide) (by decide) (by decide) (by decide) (by decide)

/-- C10: for every non-empty aggregate and positive total — even one that
exceeds the true sum of the counts, which is never validated — the
single-shot path returns some entry of the list (no out-of-range access),
and when no cumulative prefix sum exceeds the drawn value it silently
falls back to the last entry. -/
theorem randomNameWithTotal_mismatch_safe (aggregated : List NameCount) (total : Int)
    (u : ℚ) (rest : List ℚ) (hne : aggregated ≠ []) (hpos : 0 < total) :
    ∃ e, RandomNameFromAggregateWithTotal aggregated total (u :: rest) = .ok (e, rest) ∧
      e ∈ aggregated ∧
      ((∀ k < aggregated.length,
          cumsum aggregated (k + 1) ≤ ((⌊u * (total.toNat : ℚ)⌋).toNat : Int)) →
        e = aggregated.getLastD default) := by
  unfold RandomNameFromAggregateWithTotal intn takeRand
  rw [if_neg (by simpa [List.isEmpty_iff] using hne)]
  rw [if_neg (not_le.mpr hpos)]
  dsimp only
  rcases hscan : scanPick ((⌊u * (total.toNat : ℚ)⌋).toNat : Int) 0 aggregated with _ | e
  · refine ⟨aggregated.getLastD default, rfl, ?_, fun _ => rfl⟩
    have hsome : aggregated.getLast?.isSome := by
      rw [List.getLast?_isSome]
      exact hne
    rcases Option.isSome_iff_exists.mp hsome with ⟨a, ha⟩
    rw [List.getLastD_eq_getLast?, ha]
    exact List.mem_of_getLast?_eq_some ha
  · refine ⟨e, rfl, scanPick_mem _ aggregated 0 e hscan, fun hall => ?_⟩
    have : scanPick ((⌊u * (total.toNat : ℚ)⌋).toNat : Int) 0 aggregated = none :=
      scanPick_none_of _ aggregated 0 fun k hk => by
        have := hall k hk
        omega
    rw [hscan] at this
    cases this

/-- Witness for C10: with the true sum 5 but supplied total 10 and drawn
value 7, the scan runs off the end and returns the last entry B. -/
theorem randomNameWithTotal_mismatch_safe_witness :
    ∃ e, RandomNameFromAggregateWithTotal [⟨"A", 2⟩, ⟨"B", 3⟩] 10 [7/10] = .ok (e, []) ∧
      e ∈ ([⟨"A", 2⟩, ⟨"B", 3⟩] : List NameCount) ∧
      ((∀ k < ([⟨"A", 2⟩, ⟨"B", 3⟩] : List NameCount).length,
          cumsum [⟨"A", 2⟩, ⟨"B", 3⟩] (k + 1) ≤
            ((⌊(7/10 : ℚ) * ((10 : Int).toNat : ℚ)⌋).toNat : Int)) →
        e = ([⟨"A", 2⟩, ⟨"B", 3⟩] : List NameCount).getLastD default) :=
  randomNameWithTotal_mismatch_safe [⟨"A", 2⟩, ⟨"B", 3⟩] 10 (7/10) [] (by decide) (by decide)

/-! ## Trend lemmas -/

theorem filter_eq_single_of_nodup {l : List NameCount} {e : NameCount} {key : String}
    (hnd : (l.map fun x => upperStr x.name).Nodup) (hmem : e ∈ l)
    (hkey : upperStr e.name = key) :
    l.filter (fun x => upperStr x.name == key) = [e] := by
  induction l with
  | nil => cases hmem
  | cons x rest ih =>
      simp only [List.map_cons, List.nodup_cons] at hnd
      rcases List.mem_cons.mp hmem with hx | hx
      · subst hx
        rw [List.filter_cons, if_pos (by simp [hkey])]
        have : rest.filter (fun x => upperStr x.name == key) = [] := by
          rw [List.filter_eq_nil_iff]
          intro q hq
          simp only [beq_iff_eq]
          intro hc
          exact hnd.1 (by rw [hkey, ← hc]; exact List.mem_map_of_mem _ hq)
        rw [this]
      · have hxk : ¬ (upperStr x.name == key) = true := by
          simp only [beq_iff_eq]
          intro hc
          exact hnd.1 (by rw [hc, ← hkey]; exact List.mem_map_of_mem _ hx)
        rw [List.filter_cons, if_neg hxk]
        exact ih hnd.2 hx

theorem unique_entry_eq {l1 l2 : List NameCount} (hperm : l1.Perm l2)
    (hnd : (l1.map fun x => upperStr x.name).Nodup) {e1 e2 : NameCount} {key : String}
    (h1 : e1 ∈ l1) (hk1 : upperStr e1.name = key) (h2 : e2 ∈ l2)
    (hk2 : upperStr e2.name = key) : e1 = e2 := by
  have hnd2 : (l2.map fun x => upperStr x.name).Nodup :=
    (hperm.map fun x => upperStr x.name).nodup_iff.mp hnd
  have f1 := filter_eq_single_of_nodup hnd h1 hk1
  have f2 := filter_eq_single_of_nodup hnd2 h2 hk2
  have hp := hperm.filter (fun x => upperStr x.name == key)
  rw [f1, f2] at hp
  simpa using hp

theorem yearStandings_perm (g : String) (y : Int) (records : List Record) :
    (yearStandings g y records).Perm (yearEntries g y records) :=
  sortAgg_perm _

theorem yearEntries_keys_nodup (g : String) (y : Int) (records : List Record) :
    ((yearEntries g y records).map fun e => upperStr e.name).Nodup :=
  nodup_keys_accumulate _ records

theorem yearStandings_keys_nodup (g : String) (y : Int) (records : List Record) :
    ((yearStandings g y records).map fun e => upperStr e.name).Nodup :=
  ((yearStandings_perm g y records).map fun e => upperStr e.name).nodup_iff.mpr
    (yearEntries_keys_nodup g y records)

/-- Full characterisation of the `TrendPoint` emitted for one key and one
year: the year field, the presence condition, the count and rank when
present, and the zeroes when absent. -/
theorem pointFor_spec (records : List Record) (g key : String) (y : Int) :
    (pointFor records g key y).year = y ∧
    ((pointFor records g key y).present = true ↔
      ∃ r ∈ records, trendYearPred g y r = true ∧ upperStr r.name = key) ∧
    ((pointFor records g key y).present = true →
      (pointFor records g key y).count =
        (((records.filter fun r => trendYearPred g y r && (upperStr r.name == key))).map
          (fun r => r.count)).sum ∧
      ∃ i, i < (yearStandings g y records).length ∧
        (pointFor records g key y).rank = ((i : Int) + 1) ∧
        upperStr (((yearStandings g y records).getD i default).name) = key ∧
        ((yearStandings g y records).getD i default).count = (pointFor records g key y).count) ∧
    ((pointFor records g key y).present = false →
      (pointFor records g key y).rank = 0 ∧ (pointFor records g key y).count = 0) := by
  unfold pointFor
  rcases hf : (yearEntries g y records).find? (fun e => upperStr e.name = key) with _ | agg
  · have hno : ¬ ∃ r ∈ records, trendYearPred g y r = true ∧ upperStr r.name = key := by
      intro hex
      have hkmem := (mem_keys_accumulate (trendYearPred g y) records key).mpr hex
      rcases List.mem_map.mp hkmem with ⟨e, he, hek⟩
      have : ((yearEntries g y records).find? (fun e => upperStr e.name = key)).isSome := by
        rw [List.find?_isSome]
        exact ⟨e, he, by simp [hek]⟩
      rw [hf] at this
      cases this
    rw [hf]
    refine ⟨rfl, ?_, ?_, fun _ => ⟨rfl, rfl⟩⟩
    · constructor
      · intro hc
        cases hc
      · intro hex
        exact absurd hex hno
    · intro hc
      cases hc
  · have hkey : upperStr agg.name = key := by
      have := List.find?_some hf
      simpa using this
    have hmem : agg ∈ yearEntries g y records := List.mem_of_find?_eq_some hf
    have hcount : agg.count =
        (((records.filter fun r => trendYearPred g y r && (upperStr r.name == key))).map
          (fun r => r.count)).sum := by
      rw [← sumKey_accumulate (trendYearPred g y) records key]
      have hfil := filter_eq_single_of_nodup (yearEntries_keys_nodup g y records) hmem hkey
      show agg.count = (((accumulate (trendYearPred g y) records).filter
        (fun e => upperStr e.name == key)).map (fun e => e.count)).sum
      rw [show accumulate (trendYearPred g y) records = yearEntries g y records from rfl, hfil]
      simp
    have hkmemS : key ∈ (yearStandings g y records).map fun e => upperStr e.name := by
      have : key ∈ (yearEntries g y records).map fun e => upperStr e.name :=
        hkey ▸ List.mem_map_of_mem _ hmem
      exact ((yearStandings_perm g y records).map fun e => upperStr e.name).mem_iff.mpr this
    rcases List.mem_map.mp hkmemS with ⟨e2, he2, he2k⟩
    rcases List.mem_iff_getElem.mp he2 with ⟨i, hilen, hie⟩
    have hgetD : (yearStandings g y records).getD i default = e2 := by
      rw [List.getD_eq_getElem _ default hilen, hie]
    have hrank : lookupRank (buildRanks (yearStandings g y records)) key = some (i + 1) := by
      apply lookupRank_of_nodup_mem
      · rw [buildRanks_keys]
        exact yearStandings_keys_nodup g y records
      · have := mem_buildRanks_of_lt (yearStandings g y records) i hilen
        rwa [hgetD, he2k] at this
    rw [hf]
    refine ⟨rfl, ?_, ?_, by intro hc; cases hc⟩
    · constructor
      · intro _
        exact (mem_keys_accumulate (trendYearPred g y) records key).mp
          (hkey ▸ List.mem_map_of_mem _ hmem)
      · intro _
        rfl
    · intro _
      refine ⟨hcount, i, hilen, ?_, by rw [hgetD, he2k], ?_⟩
      · show (((lookupRank (buildRanks (sortAgg (yearEntries g y records))) key).getD 0 :
          Nat) : Int) = (i : Int) + 1
        rw [show sortAgg (yearEntries g y records) = yearStandings g y records from rfl]
        rw [hrank]
        simp
      · show ((yearStandings g y records).getD i default).count = agg.count
        rw [hgetD]
        have : e2 = agg := unique_entry_eq (yearStandings_perm g y records)
          (yearStandings_keys_nodup g y records) he2 he2k hmem hkey
        rw [this]

/-- C9 counterexample: a count-0 record still creates a year entry, so the
emitted point for that name and year has present=true, rank 1 and count 0,
while the claim requires present=false when the aggregated count is zero. -/
theorem trend_zero_count_present_cex :
    Trend [⟨"CA", "F", 2019, "Olivia", 0⟩] "" ["Olivia"] =
      .ok ([2019], [⟨"Olivia", [⟨2019, 1, 0, true⟩]⟩], [(2019, 0)]) ∧
    (⟨2019, 1, 0, true⟩ : TrendPoint).present = true ∧
    (⟨2019, 1, 0, true⟩ : TrendPoint).count = 0 := by
  decide

/-- C9 (amended): in a successful `Trend` result, every series has one
point per year of the shared sorted axis; the point for year y has
present=true exactly when some gender-passing record of that year carries
the requested name (even with count 0); when present, the count is the
year-local aggregated count (sum over matching records) and the rank is
the 1-based position of that name in the year-local standings; when
absent, rank and count are 0. -/
theorem trend_points_spec (records : List Record) (gender0 : String) (names : List String)
    (years : List Int) (series : List TrendSeries) (totals : List (Int × Int))
    (h : Trend records gender0 names = .ok (years, series, totals))
    (m k : Nat) (hm : m < series.length) (hk : k < years.length) :
    series.length = (dedupeNames names).length ∧
    (series.getD m default).points.length = years.length ∧
    ((series.getD m default).points.getD k default).year = years.getD k 0 ∧
    (((series.getD m default).points.getD k default).present = true ↔
      ∃ r ∈ records,
        trendYearPred (upperStr (trimStr gender0)) (years.getD k 0) r = true ∧
        upperStr r.name = ((dedupeNames names).getD m ("", "")).1) ∧
    (((series.getD m default).points.getD k default).present = true →
      ((series.getD m default).points.getD k default).count =
        (((records.filter fun r =>
            trendYearPred (upperStr (trimStr gender0)) (years.getD k 0) r &&
            (upperStr r.name == ((dedupeNames names).getD m ("", "")).1))).map
          (fun r => r.count)).sum ∧
      ∃ i, i < (yearStandings (upperStr (trimStr gender0)) (years.getD k 0) records).length ∧
        ((series.getD m default).points.getD k default).rank = ((i : Int) + 1) ∧
        upperStr (((yearStandings (upperStr (trimStr gender0)) (years.getD k 0)
          records).getD i default).name) = ((dedupeNames names).getD m ("", "")).1 ∧
        ((yearStandings (upperStr (trimStr gender0)) (years.getD k 0) records).getD i
          default).count = ((series.getD m default).points.getD k default).count) ∧
    (((series.getD m default).points.getD k default).present = false →
      ((series.getD m default).points.getD k default).rank = 0 ∧
      ((series.getD m default).points.getD k default).count = 0) := by
  have hinv : years = sortInts (yearsOf (upperStr (trimStr gender0)) records) ∧
      series = (dedupeNames names).map (fun req =>
        { name := (displayFor records (upperStr (trimStr gender0))
            (sortInts (yearsOf (upperStr (trimStr gender0)) records)) req.1).getD req.2,
          points := (sortInts (yearsOf (upperStr (trimStr gender0)) records)).map
            (fun y => pointFor records (upperStr (trimStr gender0)) req.1 y) :
          TrendSeries }) := by
    unfold Trend at h
    dsimp only at h
    by_cases h1 : (dedupeNames names).isEmpty
    · rw [if_pos h1] at h
      cases h
    · rw [if_neg h1] at h
      by_cases h2 : (yearsOf (upperStr (trimStr gender0)) records).isEmpty
      · rw [if_pos h2] at h
        cases h
      · rw [if_neg h2] at h
        injection h with h3
        exact ⟨(congrArg Prod.fst h3).symm, (congrArg (fun t => t.2.1) h3).symm⟩
  obtain ⟨hy, hs⟩ := hinv
  subst hy
  subst hs
  have hmr : m < (dedupeNames names).length := by simpa using hm
  have hgetm : ((dedupeNames names).map (fun req =>
      { name := (displayFor records (upperStr (trimStr gender0))
          (sortInts (yearsOf (upperStr (trimStr gender0)) records)) req.1).getD req.2,
        points := (sortInts (yearsOf (upperStr (trimStr gender0)) records)).map
          (fun y => pointFor records (upperStr (trimStr gender0)) req.1 y) :
        TrendSeries })).getD m default =
      { name := (displayFor records (upperStr (trimStr gender0))
          (sortInts (yearsOf (upperStr (trimStr gender0)) records))
          ((dedupeNames names).getD m ("", "")).1).getD
          ((dedupeNames names).getD m ("", "")).2,
        points := (sortInts (yearsOf (upperStr (trimStr gender0)) records)).map
          (fun y => pointFor records (upperStr (trimStr gender0))
            ((dedupeNames names).getD m ("", "")).1 y) } := by
    rw [List.getD_eq_getElem _ _ hm, List.getElem_map, List.getD_eq_getElem _ _ hmr]
  have hpk : (((dedupeNames names).map (fun req =>
      { name := (displayFor records (upperStr (trimStr gender0))
          (sortInts (yearsOf (upperStr (trimStr gender0)) records)) req.1).getD req.2,
        points := (sortInts (yearsOf (upperStr (trimStr gender0)) records)).map
          (fun y => pointFor records (upperStr (trimStr gender0)) req.1 y) :
        TrendSeries })).getD m default).points.getD k default =
      pointFor records (upperStr (trimStr gender0)) ((dedupeNames names).getD m ("", "")).1
        ((sortInts (yearsOf (upperStr (trimStr gender0)) records)).getD k 0) := by
    rw [hgetm]
    dsimp only
    rw [List.getD_eq_getElem _ _ (by simpa using hk), List.getElem_map,
      List.getD_eq_getElem _ _ hk]
  have hps := pointFor_spec records (upperStr (trimStr gender0))
    ((dedupeNames names).getD m ("", "")).1
    ((sortInts (yearsOf (upperStr (trimStr gender0)) records)).getD k 0)
  refine ⟨by simp, ?_, ?_, ?_, ?_, ?_⟩
  · rw [hgetm]
    dsimp only
    rw [List.length_map]
  · rw [hpk]
    exact hps.1
  · rw [hpk]
    exact hps.2.1
  · rw [hpk]
    exact hps.2.2.1
  · rw [hpk]
    exact hps.2.2.2

/-- Witness for C9's amended theorem on a one-record dataset: the present
flag of the emitted point is governed by the existence of a matching
record for that year. -/
theorem trend_points_spec_witness :
    ((([⟨"Olivia", [⟨2019, 1, 100, true⟩]⟩] : List TrendSeries).getD 0 default).points.getD 0
      default).present = true ↔
      ∃ r ∈ [(⟨"CA", "F", 2019, "Olivia", 100⟩ : Record)],
        trendYearPred (upperStr (trimStr "")) (([2019] : List Int).getD 0 0) r = true ∧
        upperStr r.name = ((dedupeNames ["Olivia"]).getD 0 ("", "")).1 :=
  (trend_points_spec [⟨"CA", "F", 2019, "Olivia", 100⟩] "" ["Olivia"] [2019]
    [⟨"Olivia", [⟨2019, 1, 100, true⟩]⟩] [(2019, 100)] (by decide) 0 0 (by decide)
    (by decide)).2.2.2.1
